import Mathlib

/-!
# The orphaning tree of `iavl` and the key printer of `iaviewer`

A shallow embedding of `iavl_orphaning_tree.go` (package `iavl`) and of the
argument dispatch and key encoding of `cmd/iaviewer/main.go`.

Conventions of the embedding.

* A Go `[]byte` and a Go `string` are both a list of bytes (`Bytes`); the
  conversions `string(b)` and `[]byte(s)` are the identity.
* A Go `map[string]uint64` is an association list with at most one entry per
  key (`OrphanMap`), read with `get`, written with `put`, shrunk with `delete`.
* A Go panic is the `error` side of `Except Failure`.
* The methods of `*IAVLTree` and `*nodeDB` that the tracker calls are defined
  in other files of the package; their behaviour is a parameter
  (`Collaborators`). Calls that write to the node database are recorded, in
  program order, in a list of `Event`s.
-/

namespace iavl

/-- A byte string: Go `[]byte`, and Go `string` seen as its bytes. -/
abbrev Bytes := List Nat

/-- Modelled from the spec: the Node record of the data model (the Go
declaration of `IAVLNode` lives in another file of the package). The tracker
reads `hash`, `version` and `persisted` only; child references are kept as
the hashes they resolve by. -/
structure IAVLNode where
  key : Bytes
  value : Bytes
  version : Nat
  height : Nat
  size : Nat
  hash : Bytes
  leftHash : Bytes
  rightHash : Bytes
  persisted : Bool
deriving DecidableEq, Repr

/-- The Go type `map[string]uint64` of the field `orphans`. -/
abbrev OrphanMap := List (Bytes × Nat)

namespace OrphanMap

/-- Go `v, ok := m[k]`. -/
def get : OrphanMap → Bytes → Option Nat
  | [], _ => none
  | (k', v) :: rest, k => if k' = k then some v else get rest k

/-- Go `delete(m, k)`. -/
def delete (m : OrphanMap) (k : Bytes) : OrphanMap :=
  m.filter (fun e => decide (e.1 ≠ k))

/-- Go `m[k] = v`. -/
def put (m : OrphanMap) (k : Bytes) (v : Nat) : OrphanMap :=
  (k, v) :: delete m k

/-- The keys of the map, in storage order. -/
def keys (m : OrphanMap) : List Bytes := m.map Prod.fst

/-- The map without the entries stored under one of the keys `ks`; every
other entry is kept as it is. -/
def deleteAll (m : OrphanMap) (ks : List Bytes) : OrphanMap :=
  m.filter (fun e => decide (e.1 ∉ ks))

end OrphanMap

/-- The fields of `IAVLTree` that the tracker touches: the root pointer
(`none` is Go `nil`) and the node database handle, kept as the identity of
the shared `*nodeDB`. -/
structure IAVLTree where
  root : Option IAVLNode
  ndb : Nat
deriving DecidableEq, Repr

/-- How an operation can abort. -/
inductive Failure where
  /-- The call `cmn.PanicSanity(msg)`. -/
  | sanity (msg : String)
  /-- The Go runtime panic on a field read through a nil pointer. -/
  | nilDereference
deriving DecidableEq, Repr

/-- What `IAVLTree.set(key, value)` hands back: the tree as the call leaves
it, the superseded nodes, and whether the key was already present. -/
structure SetResult where
  tree : IAVLTree
  orphaned : List IAVLNode
  updated : Bool

/-- What `IAVLTree.Remove(key)` hands back. -/
structure RemoveResult where
  tree : IAVLTree
  val : Bytes
  orphaned : List IAVLNode
  removed : Bool

/-- One run of `nodeDB.SaveBranch(root, cb)` as the callback sees it: the
branch save either returns, leaving the root object in some state, or invokes
the callback on a node and carries on according to the node the callback
returned. -/
inductive SaveRun where
  | done (root : Option IAVLNode) : SaveRun
  | call (node : IAVLNode) (next : IAVLNode → SaveRun) : SaveRun

/-- Runs a branch save against a callback that threads a state `S`. Gives the
root object as the branch save leaves it and the final state. -/
def SaveRun.exec {S : Type} (cb : IAVLNode → S → IAVLNode × S) :
    SaveRun → S → Option IAVLNode × S
  | .done root, s => (root, s)
  | .call node next, s => SaveRun.exec cb (next (cb node s).1) (cb node s).2

/-- The code the tracker calls and that is defined outside
`iavl_orphaning_tree.go`: three methods of `*IAVLTree`, and the two methods of
`*nodeDB` that call back into the tracker. `SaveBranch ndb root` is the run of
the branch save, `traverseOrphansVersion ndb version` lists the `(k, v)`
pairs handed to the visitor, in order. -/
structure Collaborators where
  set : IAVLTree → Bytes → Bytes → SetResult
  Remove : IAVLTree → Bytes → RemoveResult
  Load : IAVLTree → Bytes → IAVLTree
  SaveBranch : Nat → Option IAVLNode → SaveRun
  traverseOrphansVersion : Nat → Nat → List (Bytes × Bytes)

/-- What the tracker does to the outside, in program order. -/
inductive Event where
  /-- The tracker ran `tree.deleteOrphan(hash)` inside the save callback. -/
  | deleteOrphan (hash : Bytes)
  /-- The caller's hook `fn` was invoked on `node`. -/
  | onSave (node : IAVLNode)
  /-- The call `ndb.SaveBranch(..)` returned. -/
  | saveBranchReturned (ndb : Nat)
  /-- The call `ndb.SaveOrphans(version, orphans)`. -/
  | SaveOrphans (ndb : Nat) (version : Nat) (orphans : OrphanMap)
  /-- The call `ndb.Unorphan(hash, version)`. -/
  | Unorphan (ndb : Nat) (hash : Bytes) (version : Nat)
deriving DecidableEq, Repr

/-- The struct `orphaningTree`: the embedded `*IAVLTree`, the pending orphan
map (hash to version) and the version of the root. -/
structure orphaningTree where
  IAVLTree : IAVLTree
  orphans : OrphanMap
  rootVersion : Nat
deriving DecidableEq, Repr

/-- Go `newOrphaningTree`. -/
def newOrphaningTree (t : IAVLTree) : orphaningTree :=
  let version : Nat :=
    match t.root with
    | some root => root.version
    | none => 0
  { IAVLTree := t, rootVersion := version, orphans := [] }

/-- Go `(*orphaningTree).addOrphans`: the loop over the superseded nodes. -/
def addOrphans (tree : orphaningTree) : List IAVLNode → Except Failure orphaningTree
  | [] => .ok tree
  | node :: rest =>
    if !node.persisted then
      addOrphans tree rest
    else if node.hash.length = 0 then
      .error (.sanity "Expected to find node hash, but was empty")
    else if tree.rootVersion = 0 then
      .error (.sanity "Expected root version not to be zero")
    else
      addOrphans { tree with orphans := tree.orphans.put node.hash node.version } rest

/-- Go `(*orphaningTree).deleteOrphan`: the tracker afterwards, the version
that was stored and whether an entry was deleted. -/
def deleteOrphan (tree : orphaningTree) (hash : Bytes) : orphaningTree × Nat × Bool :=
  match tree.orphans.get hash with
  | some version => ({ tree with orphans := tree.orphans.delete hash }, version, true)
  | none => (tree, 0, false)

/-- Go `(*orphaningTree).Set`. -/
def Set (env : Collaborators) (tree : orphaningTree) (key value : Bytes) :
    Except Failure (orphaningTree × Bool) :=
  let r := env.set tree.IAVLTree key value
  match addOrphans { tree with IAVLTree := r.tree } r.orphaned with
  | .ok tree1 => .ok (tree1, r.updated)
  | .error e => .error e

/-- Go `(*orphaningTree).Remove`. -/
def Remove (env : Collaborators) (tree : orphaningTree) (key : Bytes) :
    Except Failure (orphaningTree × Bytes × Bool) :=
  let r := env.Remove tree.IAVLTree key
  match addOrphans { tree with IAVLTree := r.tree } r.orphaned with
  | .ok tree1 => .ok (tree1, r.val, r.removed)
  | .error e => .error e

/-- Go `(*orphaningTree).Clone`. The read `inner.root.version` panics when
the root is nil. -/
def Clone (tree : orphaningTree) : Except Failure orphaningTree :=
  let inner : iavl.IAVLTree := { root := tree.IAVLTree.root, ndb := tree.IAVLTree.ndb }
  match inner.root with
  | none => .error .nilDereference
  | some root => .ok { IAVLTree := inner, rootVersion := root.version, orphans := [] }

/-- Go `(*orphaningTree).loadOrphans`: every visited pair `(k, v)` stores
`orphans[string(v)] = version`. -/
def loadOrphans (env : Collaborators) (tree : orphaningTree) (version : Nat) : orphaningTree :=
  (env.traverseOrphansVersion tree.IAVLTree.ndb version).foldl
    (fun t kv => { t with orphans := t.orphans.put kv.2 version }) tree

/-- Go `(*orphaningTree).Load`. The read `tree.root.version` panics when the
loaded root is nil. -/
def Load (env : Collaborators) (tree : orphaningTree) (root : Bytes) :
    Except Failure orphaningTree :=
  let inner := env.Load tree.IAVLTree root
  match inner.root with
  | none => .error .nilDereference
  | some r =>
    let tree1 : orphaningTree := { tree with IAVLTree := inner, rootVersion := r.version }
    .ok (loadOrphans env tree1 tree1.rootVersion)

/-- Go `(*orphaningTree).Unorphan`. -/
def Unorphan (tree : orphaningTree) (hash : Bytes) (version : Nat) :
    orphaningTree × List Event :=
  ((deleteOrphan tree hash).1, [Event.Unorphan tree.IAVLTree.ndb hash version])

/-- The closure that `SaveVersion` passes to `SaveBranch`: delete the pending
orphan entry of the node's hash, then call the caller's hook `fn`. The state
is the tracker, the state `W` of the caller's hook and the events so far. -/
def saveHook {W : Type} (fn : IAVLNode → W → IAVLNode × W) (node : IAVLNode)
    (s : orphaningTree × W × List Event) : IAVLNode × (orphaningTree × W × List Event) :=
  let tree1 := (deleteOrphan s.1 node.hash).1
  let trace1 := s.2.2 ++ [Event.deleteOrphan node.hash]
  let r := fn node s.2.1
  (r.1, (tree1, r.2, trace1 ++ [Event.onSave node]))

/-- Go `(*orphaningTree).SaveVersion`. The caller's hook `fn` works on a
state `W` of its own. Node objects are updated in place by the branch save,
so the root object is read back from the run. -/
def SaveVersion {W : Type} (env : Collaborators) (tree : orphaningTree) (version : Nat)
    (fn : IAVLNode → W → IAVLNode × W) (w : W) : orphaningTree × W × List Event :=
  let ndb := tree.IAVLTree.ndb
  let r := (env.SaveBranch ndb tree.IAVLTree.root).exec (saveHook fn) (tree, w, [])
  let tree1 : orphaningTree := { r.2.1 with IAVLTree := { r.2.1.IAVLTree with root := r.1 } }
  (tree1, r.2.2.1,
    r.2.2.2 ++ [Event.saveBranchReturned ndb, Event.SaveOrphans ndb version tree1.orphans])

/-- The map the specification describes for `Set` and `Remove`: the previous
map updated, in list order, with `hash -> version` for the persisted nodes of
the list. -/
def recordOrphans (m : OrphanMap) (L : List IAVLNode) : OrphanMap :=
  (L.filter (fun n => n.persisted)).foldl (fun acc n => acc.put n.hash n.version) m

/-- The condition the specification gives for an invariant violation: a
persisted node with an empty hash, or a persisted node while the root version
is zero. -/
def violatesInvariant (tree : orphaningTree) (L : List IAVLNode) : Prop :=
  (∃ n ∈ L, n.persisted = true ∧ n.hash = []) ∨
    (tree.rootVersion = 0 ∧ ∃ n ∈ L, n.persisted = true)

/-- The nodes the save callback is invoked on during a branch save, in order,
when the caller's hook is `fn` started in state `w`. -/
def savedNodes {W : Type} (fn : IAVLNode → W → IAVLNode × W) : SaveRun → W → List IAVLNode
  | .done _, _ => []
  | .call node next, w => node :: savedNodes fn (next (fn node w).1) (fn node w).2

/-- The state of the caller's hook after a branch save. -/
def hookStateAfter {W : Type} (fn : IAVLNode → W → IAVLNode × W) : SaveRun → W → W
  | .done _, w => w
  | .call node next, w => hookStateAfter fn (next (fn node w).1) (fn node w).2

/-- The root object as a branch save leaves it. -/
def rootAfter {W : Type} (fn : IAVLNode → W → IAVLNode × W) : SaveRun → W → Option IAVLNode
  | .done root, _ => root
  | .call node next, w => rootAfter fn (next (fn node w).1) (fn node w).2

/-- The maps handed to `ndb.SaveOrphans`, with their versions, in order. -/
def flushed : List Event → List (Nat × OrphanMap)
  | [] => []
  | Event.SaveOrphans _ version orphans :: rest => (version, orphans) :: flushed rest
  | _ :: rest => flushed rest

/-- Modelled from the spec: the durable orphan record of the data model,
`{hash, createdAtVersion}`, of which the node database keeps a set for every
version (the Go code of `nodeDB` lives in another file of the package). -/
structure OrphanRecord where
  hash : Bytes
  createdAtVersion : Nat
deriving DecidableEq, Repr

/-- Modelled from the spec: the records that `SaveOrphans(version, orphans)`
writes for `version`, one for every entry `hash -> createdAtVersion` of the
flushed map. -/
def recordsOf (orphans : OrphanMap) : List OrphanRecord :=
  orphans.map (fun e => { hash := e.1, createdAtVersion := e.2 })

/-- Modelled from the spec: what `traverseOrphansVersion(version, visit)`
hands the visitor when it replays the records of `version`: a storage key `k`
locating the record (here the version, the creation version and the hash) and
the hash as `v`. The tracker reads `v` only. -/
def replay (version : Nat) (records : List OrphanRecord) : List (Bytes × Bytes) :=
  records.map (fun r => (version :: r.createdAtVersion :: r.hash, r.hash))

/-- A mutation of the tracker: a call of `Set` or of `Remove`. -/
inductive Mutation where
  | Set (key value : Bytes)
  | Remove (key : Bytes)
deriving DecidableEq, Repr

/-- One mutation applied to the tracker. -/
def Mutation.apply (env : Collaborators) (tree : orphaningTree) :
    Mutation → Except Failure orphaningTree
  | .Set key value =>
    match iavl.Set env tree key value with
    | .ok r => .ok r.1
    | .error e => .error e
  | .Remove key =>
    match iavl.Remove env tree key with
    | .ok r => .ok r.1
    | .error e => .error e

/-- A sequence of mutations applied to the tracker, first to last; the first
abort ends the run. -/
def applyAll (env : Collaborators) : orphaningTree → List Mutation → Except Failure orphaningTree
  | tree, [] => .ok tree
  | tree, m :: rest =>
    match m.apply env tree with
    | .ok tree1 => applyAll env tree1 rest
    | .error e => .error e

/-- The underlying tree after one mutation, and the nodes it superseded. -/
def Mutation.underlying (env : Collaborators) (t : IAVLTree) : Mutation → IAVLTree × List IAVLNode
  | .Set key value => ((env.set t key value).tree, (env.set t key value).orphaned)
  | .Remove key => ((env.Remove t key).tree, (env.Remove t key).orphaned)

/-- The nodes that a sequence of mutations supersedes in the underlying tree,
in the order in which the underlying tree reports them. -/
def superseded (env : Collaborators) : IAVLTree → List Mutation → List IAVLNode
  | _, [] => []
  | t, m :: rest => (m.underlying env t).2 ++ superseded env (m.underlying env t).1 rest

/-- The underlying tree after a sequence of mutations. -/
def treeAfter (env : Collaborators) : IAVLTree → List Mutation → IAVLTree
  | t, [] => t
  | t, m :: rest => treeAfter env (m.underlying env t).1 rest

/-! ### A small stand-in for the collaborators

Used to evaluate the tracker on concrete runs: a tree that holds at most one
leaf, and a node database that saves an unsaved root. -/

/-- The content hash of the stand-in: a tag followed by key and value. -/
def demoHash (n : IAVLNode) : Bytes := 0xA0 :: (n.key ++ 0 :: n.value)

/-- The leaf the stand-in creates for `key`, `value`: not yet hashed, not yet
persisted, no version yet. -/
def demoLeaf (key value : Bytes) : IAVLNode :=
  { key := key, value := value, version := 0, height := 0, size := 1, hash := [],
    leftHash := [], rightHash := [], persisted := false }

/-- The stand-in of `IAVLTree.set` on a tree of at most one leaf: the new
leaf becomes the root, and the leaf it replaces is reported as superseded. -/
def demoSet (t : IAVLTree) (key value : Bytes) : SetResult :=
  match t.root with
  | none => { tree := { t with root := some (demoLeaf key value) }, orphaned := [], updated := false }
  | some old =>
    { tree := { t with root := some (demoLeaf key value) }, orphaned := [old],
      updated := decide (old.key = key) }

/-- The stand-in of `IAVLTree.Remove`: a missing key leaves the tree alone and
supersedes nothing; the key of the root leaf empties the tree. -/
def demoRemove (t : IAVLTree) (key : Bytes) : RemoveResult :=
  match t.root with
  | none => { tree := t, val := [], orphaned := [], removed := false }
  | some old =>
    if old.key = key then
      { tree := { t with root := none }, val := old.value, orphaned := [old], removed := true }
    else { tree := t, val := [], orphaned := [], removed := false }

/-- The stand-in of `nodeDB.SaveBranch`: an unsaved root is hashed, handed to
the callback, and marked persisted; a persisted root is skipped. -/
def demoSaveBranch (_ndb : Nat) (root : Option IAVLNode) : SaveRun :=
  match root with
  | none => .done none
  | some r =>
    if r.persisted then .done (some r)
    else .call { r with hash := demoHash r } (fun r1 => .done (some { r1 with persisted := true }))

/-- The stand-in collaborators over a table of stored nodes (looked up by
hash on `Load`) and a table of durable orphan records for every version. -/
def demo (nodes : List IAVLNode) (records : Nat → List OrphanRecord) : Collaborators :=
  { set := demoSet
    Remove := demoRemove
    Load := fun t root => { t with root := nodes.find? (fun n => decide (n.hash = root)) }
    SaveBranch := demoSaveBranch
    traverseOrphansVersion := fun _ version => replay version (records version) }

/-- A caller hook that stamps the version being saved on every saved node and
keeps no state of its own. -/
def stamp (version : Nat) (n : IAVLNode) (w : Unit) : IAVLNode × Unit :=
  ({ n with version := version }, w)

/-- The persisted leaf for key `a` with value `1`, created at version 1. -/
def leafA1 : IAVLNode :=
  { key := [97], value := [49], version := 1, height := 0, size := 1, hash := [0xA0, 97, 0, 49],
    leftHash := [], rightHash := [], persisted := true }

/-- The persisted leaf for key `a` with value `2`, created at version 2. -/
def leafA2 : IAVLNode :=
  { key := [97], value := [50], version := 2, height := 0, size := 1, hash := [0xA0, 97, 0, 50],
    leftHash := [], rightHash := [], persisted := true }

/-- A node database that keeps, for version 2, the records of the map
`hash of leafA1 -> 1` that the save of version 2 flushed. -/
def recordsAfterSave2 (version : Nat) : List OrphanRecord :=
  if version = 2 then recordsOf [(leafA1.hash, 1)] else []

end iavl

namespace iaviewer

open iavl (Bytes)

/-- The digit table of Go `encoding/hex`: `0123456789abcdef`. -/
def hextable : Bytes := [48, 49, 50, 51, 52, 53, 54, 55, 56, 57, 97, 98, 99, 100, 101, 102]

/-- Go `hex.EncodeToString`: for every byte `v` the digits `hextable[v>>4]`
and `hextable[v&0x0f]`. -/
def EncodeToString (src : Bytes) : Bytes :=
  src.flatMap (fun v => [hextable.getD (v % 256 / 16) 0, hextable.getD (v % 16) 0])

/-- Go `strings.ToUpper` on an ASCII string: the letters `a` to `z` become
`A` to `Z`, every other byte stays. -/
def ToUpper (s : Bytes) : Bytes :=
  s.map (fun c => if 97 ≤ c ∧ c ≤ 122 then c - 32 else c)

/-- Go `bytes.IndexRune(s, r)` for an ASCII rune `r`: the index of the first
byte equal to `r`, or `-1`. -/
def IndexRune : Bytes → Nat → Int
  | [], _ => -1
  | b :: rest, r => if b = r then 0 else if IndexRune rest r = -1 then -1 else IndexRune rest r + 1

/-- The loop of Go `encodeID` over the bytes still to inspect. -/
def encodeIDLoop (id : Bytes) : Bytes → Bytes
  | [] => id
  | b :: rest => if b < 0x20 ∨ b ≥ 0x80 then ToUpper (EncodeToString id) else encodeIDLoop id rest

/-- Go `encodeID`. -/
def encodeID (id : Bytes) : Bytes := encodeIDLoop id id

/-- Go `parseWeaveKey`; byte 58 is the colon. -/
def parseWeaveKey (key : Bytes) : Bytes :=
  let cut := IndexRune key 58
  if cut = -1 then encodeID key
  else
    let front := key.take cut.toNat
    let id := key.drop (cut.toNat + 1)
    encodeID front ++ 58 :: encodeID id

/-- The encoding the comment of `encodeID` describes: the bytes themselves
when every byte is printable ASCII (0x20 to 0x7E), upper-case hexadecimal
otherwise. -/
def encodePrintable (id : Bytes) : Bytes :=
  if id.all (fun b => decide (0x20 ≤ b ∧ b ≤ 0x7E)) then id else ToUpper (EncodeToString id)

/-- How a run of `main` ends, as far as `main` itself decides it: an exit, a
runtime panic, or the call of one of the printing functions. -/
inductive Outcome where
  /-- The usage text and `os.Exit(1)`. -/
  | usage
  /-- The text `Invalid version number` and `os.Exit(1)`. -/
  | invalidVersion
  /-- The text `Error reading data` and `os.Exit(1)`. -/
  | readError
  /-- The Go runtime panic `index out of range [index] with length len`. -/
  | indexOutOfRange (index len : Nat)
  /-- The call `panic(err)` after `hex.DecodeString` failed. -/
  | decodePanic
  | printData
  | PrintShape
  | PrintVersions
  | PrintBalance (addr : Bytes)
  | PrintAccount (addr : Bytes)
  | PrintStatistics (dir : String) (version : Int)
  /-- No case of the switch applied. -/
  | nothing
deriving DecidableEq, Repr

/-- The library and database calls of `main`: `strconv.Atoi` (`none` when it
reports an error), whether `ReadTree(dir, version, dbPrefix)` returns without
error, and `hex.DecodeString` (`none` when it reports an error). -/
structure Externals where
  Atoi : String → Option Int
  ReadTree : String → Int → String → Bool
  DecodeString : String → Option Bytes

/-- Go `args[i]`: the element, or the index-out-of-range panic. -/
def index (args : List String) (i : Nat) : Except Outcome String :=
  match args.get? i with
  | some a => .ok a
  | none => .error (.indexOutOfRange i args.length)

/-- Go `main` on the argument list `os.Args[1:]`, up to the first exit, panic
or printing call. -/
def mainSteps (ext : Externals) (args : List String) : Except Outcome Outcome := do
  if args.length < 3 then throw Outcome.usage
  let cmd ← index args 0
  if cmd ≠ "data" ∧ cmd ≠ "shape" ∧ cmd ≠ "versions" ∧ cmd ≠ "balance" ∧ cmd ≠ "nonce" ∧
      cmd ≠ "stastistics" then
    throw Outcome.usage
  let version : Int ←
    if args.length ≥ 4 then do
      let a3 ← index args 3
      match ext.Atoi a3 with
      | some v => pure v
      | none => throw Outcome.invalidVersion
    else pure 0
  if cmd ≠ "stastistics" then do
    let dir ← index args 1
    let dbPrefix ← index args 2
    if !ext.ReadTree dir version dbPrefix then throw Outcome.readError
  if cmd = "data" then pure Outcome.printData
  else if cmd = "shape" then pure Outcome.PrintShape
  else if cmd = "versions" then pure Outcome.PrintVersions
  else if cmd = "balance" then do
    let a4 ← index args 4
    match ext.DecodeString a4 with
    | some addr => pure (Outcome.PrintBalance addr)
    | none => throw Outcome.decodePanic
  else if cmd = "nonce" then do
    let a4 ← index args 4
    match ext.DecodeString a4 with
    | some addr => pure (Outcome.PrintAccount addr)
    | none => throw Outcome.decodePanic
  else if cmd = "stastistics" then do
    let dir ← index args 1
    pure (Outcome.PrintStatistics dir version)
  else pure Outcome.nothing

/-- Go `main`: how the run ends. -/
def main (ext : Externals) (args : List String) : Outcome :=
  match mainSteps ext args with
  | .ok o => o
  | .error o => o

/-- The value of a non-empty string of decimal digits, `none` for any other
string: `strconv.Atoi` on unsigned numerals. -/
def decimal (s : String) : Option Int :=
  if s.data ≠ [] ∧ s.data.all (fun c => decide (48 ≤ c.toNat ∧ c.toNat ≤ 57)) then
    some (s.data.foldl (fun acc c => 10 * acc + ((c.toNat - 48 : Nat) : Int)) 0)
  else none

/-- The externals of a run in which the database opens and every argument
decodes: `Atoi` reads decimal digits, `ReadTree` succeeds, `DecodeString`
yields the empty address. -/
def friendly : Externals :=
  { Atoi := decimal
    ReadTree := fun _ _ _ => true
    DecodeString := fun _ => some [] }

end iaviewer

namespace iavl

/-! ## The pending orphan map -/

theorem OrphanMap.delete_cons (a : Bytes) (v : Nat) (rest : OrphanMap) (k : Bytes) :
    OrphanMap.delete ((a, v) :: rest) k =
      if a = k then OrphanMap.delete rest k else (a, v) :: OrphanMap.delete rest k := by
  by_cases h : a = k <;> simp [OrphanMap.delete, List.filter_cons, h]

theorem OrphanMap.get_cons (a : Bytes) (v : Nat) (rest : OrphanMap) (k : Bytes) :
    OrphanMap.get ((a, v) :: rest) k = if a = k then some v else OrphanMap.get rest k := rfl

theorem OrphanMap.get_delete (m : OrphanMap) (k k' : Bytes) :
    (m.delete k).get k' = if k' = k then none else m.get k' := by
  induction m with
  | nil => simp [OrphanMap.delete, OrphanMap.get]
  | cons e rest ih =>
    obtain ⟨a, v⟩ := e
    rw [OrphanMap.delete_cons, OrphanMap.get_cons]
    by_cases hak : a = k
    · rw [if_pos hak, ih]
      by_cases hk : k' = k
      · simp only [if_pos hk]
      · have hak2 : ¬ a = k' := fun h => hk (h.symm.trans hak)
        simp only [if_neg hk, if_neg hak2]
    · rw [if_neg hak, OrphanMap.get_cons, ih]
      by_cases hak2 : a = k'
      · have hk : ¬ k' = k := fun h => hak (hak2.trans h)
        simp only [if_pos hak2, if_neg hk]
      · simp only [if_neg hak2]

theorem OrphanMap.get_put (m : OrphanMap) (k : Bytes) (v : Nat) (k' : Bytes) :
    (m.put k v).get k' = if k' = k then some v else m.get k' := by
  show OrphanMap.get ((k, v) :: OrphanMap.delete m k) k' = _
  rw [OrphanMap.get_cons, OrphanMap.get_delete]
  by_cases hk : k' = k
  · simp only [if_pos hk, if_pos hk.symm]
  · have hk2 : ¬ k = k' := fun h => hk h.symm
    simp only [if_neg hk, if_neg hk2]

theorem OrphanMap.delete_delete (m : OrphanMap) (k : Bytes) :
    (m.delete k).delete k = m.delete k := by
  simp [OrphanMap.delete, List.filter_filter]

theorem OrphanMap.delete_of_get_none (m : OrphanMap) (k : Bytes) (h : m.get k = none) :
    m.delete k = m := by
  induction m with
  | nil => rfl
  | cons e rest ih =>
    obtain ⟨a, v⟩ := e
    rw [OrphanMap.get_cons] at h
    by_cases hak : a = k
    · rw [if_pos hak] at h
      cases h
    · rw [if_neg hak] at h
      rw [OrphanMap.delete_cons, if_neg hak, ih h]

/-! ## Recording orphans: `addOrphans`, `Set`, `Remove` -/

theorem recordOrphans_nil (m : OrphanMap) : recordOrphans m [] = m := rfl

theorem recordOrphans_cons (m : OrphanMap) (n : IAVLNode) (L : List IAVLNode) :
    recordOrphans m (n :: L) =
      if n.persisted = true then recordOrphans (m.put n.hash n.version) L
      else recordOrphans m L := by
  by_cases h : n.persisted = true <;> simp [recordOrphans, List.filter_cons, h]

theorem recordOrphans_of_not_persisted (m : OrphanMap) (L : List IAVLNode)
    (h : ∀ n ∈ L, n.persisted = false) : recordOrphans m L = m := by
  induction L with
  | nil => rfl
  | cons n rest ih =>
    have hn : n.persisted = false := h n (List.mem_cons_self _ _)
    rw [recordOrphans_cons, hn]
    simpa using ih (fun x hx => h x (List.mem_cons_of_mem _ hx))

theorem get_foldl_put (ns : List IAVLNode) (m : OrphanMap) (h : Bytes) :
    (ns.foldl (fun acc n => acc.put n.hash n.version) m).get h =
      match ns.reverse.find? (fun n => decide (n.hash = h)) with
      | some n => some n.version
      | none => m.get h := by
  induction ns generalizing m with
  | nil => rfl
  | cons n rest ih =>
    rw [List.foldl_cons, ih, List.reverse_cons, List.find?_append]
    cases hfind : rest.reverse.find? (fun n => decide (n.hash = h)) with
    | some x => rfl
    | none =>
      by_cases hn : n.hash = h
      · simp [List.find?, hn, OrphanMap.get_put]
      · have hn2 : ¬ h = n.hash := fun e => hn e.symm
        simp [List.find?, hn, hn2, OrphanMap.get_put]

theorem get_recordOrphans (m : OrphanMap) (L : List IAVLNode) (h : Bytes) :
    (recordOrphans m L).get h =
      match (L.filter (fun n => n.persisted)).reverse.find? (fun n => decide (n.hash = h)) with
      | some n => some n.version
      | none => m.get h :=
  get_foldl_put _ m h

theorem addOrphans_rootVersion (tree tree1 : orphaningTree) (L : List IAVLNode)
    (h : addOrphans tree L = .ok tree1) :
    tree1.rootVersion = tree.rootVersion ∧ tree1.IAVLTree = tree.IAVLTree := by
  induction L generalizing tree with
  | nil =>
    simp only [addOrphans, Except.ok.injEq] at h
    subst h
    exact ⟨rfl, rfl⟩
  | cons n rest ih =>
    rw [addOrphans] at h
    split_ifs at h with h1 h2 h3
    all_goals first
      | exact ih _ h
      | exact (ih _ h).imp id id

theorem addOrphans_eq_ok (tree : orphaningTree) (L : List IAVLNode)
    (hroot : tree.rootVersion ≠ 0) (hhash : ∀ n ∈ L, n.persisted = true → n.hash ≠ []) :
    addOrphans tree L = .ok { tree with orphans := recordOrphans tree.orphans L } := by
  induction L generalizing tree with
  | nil => rfl
  | cons n rest ih =>
    have hrest : ∀ x ∈ rest, x.persisted = true → x.hash ≠ [] :=
      fun x hx => hhash x (List.mem_cons_of_mem _ hx)
    rw [addOrphans, recordOrphans_cons]
    by_cases hp : n.persisted = true
    · have hlen : ¬ n.hash.length = 0 := by
        intro h0
        exact hhash n (List.mem_cons_self _ _) hp (List.length_eq_zero.mp h0)
      simp only [hp, Bool.not_true, Bool.false_eq_true, if_true, hlen, hroot, if_false]
      simpa using ih { tree with orphans := tree.orphans.put n.hash n.version } hroot hrest
    · have hp2 : n.persisted = false := by simpa using hp
      simp only [hp2, Bool.not_false, if_true]
      simpa using ih tree hroot hrest

theorem addOrphans_error_iff (tree : orphaningTree) (L : List IAVLNode) :
    (∃ msg, addOrphans tree L = .error (.sanity msg)) ↔ violatesInvariant tree L := by
  induction L generalizing tree with
  | nil => simp [addOrphans, violatesInvariant]
  | cons n rest ih =>
    rw [addOrphans]
    by_cases hp : n.persisted = true
    · by_cases hh : n.hash = []
      · simp only [hp, hh, Bool.not_true, Bool.false_eq_true, List.length_nil, if_true, if_false]
        constructor
        · intro _
          exact Or.inl ⟨n, List.mem_cons_self _ _, hp, hh⟩
        · intro _
          exact ⟨_, rfl⟩
      · have hlen : ¬ n.hash.length = 0 := fun h0 => hh (List.length_eq_zero.mp h0)
        by_cases hr : tree.rootVersion = 0
        · simp only [hp, Bool.not_true, Bool.false_eq_true, hlen, hr, if_true, if_false]
          constructor
          · intro _
            exact Or.inr ⟨hr, n, List.mem_cons_self _ _, hp⟩
          · intro _
            exact ⟨_, rfl⟩
        · simp only [hp, Bool.not_true, Bool.false_eq_true, hlen, hr, if_false]
          rw [ih]
          simp only [violatesInvariant, List.mem_cons, hr, false_and, or_false]
          constructor
          · rintro ⟨x, hx, hxp, hxh⟩
            exact ⟨x, Or.inr hx, hxp, hxh⟩
          · rintro ⟨x, hx | hx, hxp, hxh⟩
            · exact absurd (hx ▸ hxh) hh
            · exact ⟨x, hx, hxp, hxh⟩
    · have hp2 : n.persisted = false := by simpa using hp
      simp only [hp2, Bool.not_false, if_true]
      rw [ih]
      simp only [violatesInvariant, List.mem_cons]
      constructor
      · rintro (⟨x, hx, hxp, hxh⟩ | ⟨hr, x, hx, hxp⟩)
        · exact Or.inl ⟨x, Or.inr hx, hxp, hxh⟩
        · exact Or.inr ⟨hr, x, Or.inr hx, hxp⟩
      · rintro (⟨x, hx | hx, hxp, hxh⟩ | ⟨hr, x, hx | hx, hxp⟩)
        · rw [hx, hp2] at hxp
          cases hxp
        · exact Or.inl ⟨x, hx, hxp, hxh⟩
        · rw [hx, hp2] at hxp
          cases hxp
        · exact Or.inr ⟨hr, x, hx, hxp⟩

theorem addOrphans_never_nil (tree : orphaningTree) (L : List IAVLNode) :
    addOrphans tree L ≠ .error .nilDereference := by
  induction L generalizing tree with
  | nil => simp [addOrphans]
  | cons n rest ih =>
    rw [addOrphans]
    split_ifs
    · exact ih tree
    · simp
    · simp
    · exact ih _

theorem addOrphans_ok_iff (tree : orphaningTree) (L : List IAVLNode) :
    (∃ tree1, addOrphans tree L = .ok tree1) ↔ ¬ violatesInvariant tree L := by
  rw [← addOrphans_error_iff]
  cases h : addOrphans tree L with
  | ok t => simp
  | error e =>
    cases e with
    | sanity msg => simp
    | nilDereference => exact absurd h (addOrphans_never_nil tree L)

/-! ## Forgetting orphans: `deleteOrphan`, `Unorphan`, `SaveVersion` -/

theorem OrphanMap.get_deleteAll (m : OrphanMap) (ks : List Bytes) (k : Bytes) :
    (m.deleteAll ks).get k = if k ∈ ks then none else m.get k := by
  induction m with
  | nil => simp [OrphanMap.deleteAll, OrphanMap.get]
  | cons e rest ih =>
    obtain ⟨a, v⟩ := e
    have hcons : OrphanMap.deleteAll ((a, v) :: rest) ks =
        if a ∈ ks then OrphanMap.deleteAll rest ks
        else (a, v) :: OrphanMap.deleteAll rest ks := by
      by_cases h : a ∈ ks <;> simp [OrphanMap.deleteAll, List.filter_cons, h]
    rw [hcons, OrphanMap.get_cons]
    by_cases ha : a ∈ ks
    · rw [if_pos ha, ih]
      by_cases hk : k ∈ ks
      · simp only [if_pos hk]
      · have hak : ¬ a = k := fun h => hk (h ▸ ha)
        simp only [if_neg hk, if_neg hak]
    · rw [if_neg ha, OrphanMap.get_cons, ih]
      by_cases hak : a = k
      · have hk : ¬ k ∈ ks := fun h => ha (hak ▸ h)
        simp only [if_pos hak, if_neg hk]
      · simp only [if_neg hak]

theorem OrphanMap.deleteAll_nil (m : OrphanMap) : m.deleteAll [] = m := by
  simp [OrphanMap.deleteAll]

theorem OrphanMap.deleteAll_delete (m : OrphanMap) (k : Bytes) (ks : List Bytes) :
    (m.delete k).deleteAll ks = m.deleteAll (k :: ks) := by
  simp only [OrphanMap.deleteAll, OrphanMap.delete, List.filter_filter]
  apply List.filter_congr
  intro e _
  by_cases h1 : e.1 = k <;> by_cases h2 : e.1 ∈ ks <;> simp [h1, h2]

theorem deleteOrphan_fst (tree : orphaningTree) (hash : Bytes) :
    (deleteOrphan tree hash).1 = { tree with orphans := tree.orphans.delete hash } := by
  unfold deleteOrphan
  cases h : tree.orphans.get hash with
  | some v => rfl
  | none => simp [OrphanMap.delete_of_get_none _ _ h]

theorem exec_saveHook {W : Type} (fn : IAVLNode → W → IAVLNode × W) (run : SaveRun)
    (tree : orphaningTree) (w : W) (trace : List Event) :
    run.exec (saveHook fn) (tree, w, trace) =
      (rootAfter fn run w,
        ({ tree with
            orphans := tree.orphans.deleteAll ((savedNodes fn run w).map (fun n => n.hash)) },
          hookStateAfter fn run w,
          trace ++ (savedNodes fn run w).flatMap
            (fun n => [Event.deleteOrphan n.hash, Event.onSave n]))) := by
  induction run generalizing tree w trace with
  | done root =>
    simp [SaveRun.exec, rootAfter, savedNodes, hookStateAfter, OrphanMap.deleteAll_nil]
  | call node next ih =>
    simp only [SaveRun.exec, rootAfter, savedNodes, hookStateAfter, saveHook]
    rw [ih, deleteOrphan_fst]
    simp [OrphanMap.deleteAll_delete, List.flatMap_cons, List.append_assoc]

theorem Set_eq (env : Collaborators) (tree : orphaningTree) (key value : Bytes) :
    Set env tree key value =
      match addOrphans { tree with IAVLTree := (env.set tree.IAVLTree key value).tree }
          (env.set tree.IAVLTree key value).orphaned with
      | .ok tree1 => .ok (tree1, (env.set tree.IAVLTree key value).updated)
      | .error e => .error e := rfl

theorem Remove_eq (env : Collaborators) (tree : orphaningTree) (key : Bytes) :
    Remove env tree key =
      match addOrphans { tree with IAVLTree := (env.Remove tree.IAVLTree key).tree }
          (env.Remove tree.IAVLTree key).orphaned with
      | .ok tree1 =>
        .ok (tree1, (env.Remove tree.IAVLTree key).val, (env.Remove tree.IAVLTree key).removed)
      | .error e => .error e := rfl

theorem Set_error_iff (env : Collaborators) (tree : orphaningTree) (key value : Bytes) :
    (∃ msg, Set env tree key value = .error (.sanity msg)) ↔
      violatesInvariant tree (env.set tree.IAVLTree key value).orphaned := by
  rw [Set_eq]
  rw [show violatesInvariant tree (env.set tree.IAVLTree key value).orphaned ↔
      violatesInvariant { tree with IAVLTree := (env.set tree.IAVLTree key value).tree }
        (env.set tree.IAVLTree key value).orphaned from Iff.rfl]
  rw [← addOrphans_error_iff]
  cases addOrphans { tree with IAVLTree := (env.set tree.IAVLTree key value).tree }
      (env.set tree.IAVLTree key value).orphaned with
  | ok t => simp
  | error e => simp

theorem Set_ok_iff (env : Collaborators) (tree : orphaningTree) (key value : Bytes) :
    (∃ r, Set env tree key value = .ok r) ↔
      ¬ violatesInvariant tree (env.set tree.IAVLTree key value).orphaned := by
  rw [Set_eq]
  rw [show violatesInvariant tree (env.set tree.IAVLTree key value).orphaned ↔
      violatesInvariant { tree with IAVLTree := (env.set tree.IAVLTree key value).tree }
        (env.set tree.IAVLTree key value).orphaned from Iff.rfl]
  rw [← addOrphans_ok_iff]
  cases addOrphans { tree with IAVLTree := (env.set tree.IAVLTree key value).tree }
      (env.set tree.IAVLTree key value).orphaned with
  | ok t => simp
  | error e => simp

theorem Remove_error_iff (env : Collaborators) (tree : orphaningTree) (key : Bytes) :
    (∃ msg, Remove env tree key = .error (.sanity msg)) ↔
      violatesInvariant tree (env.Remove tree.IAVLTree key).orphaned := by
  rw [Remove_eq]
  rw [show violatesInvariant tree (env.Remove tree.IAVLTree key).orphaned ↔
      violatesInvariant { tree with IAVLTree := (env.Remove tree.IAVLTree key).tree }
        (env.Remove tree.IAVLTree key).orphaned from Iff.rfl]
  rw [← addOrphans_error_iff]
  cases addOrphans { tree with IAVLTree := (env.Remove tree.IAVLTree key).tree }
      (env.Remove tree.IAVLTree key).orphaned with
  | ok t => simp
  | error e => simp

theorem Remove_ok_iff (env : Collaborators) (tree : orphaningTree) (key : Bytes) :
    (∃ r, Remove env tree key = .ok r) ↔
      ¬ violatesInvariant tree (env.Remove tree.IAVLTree key).orphaned := by
  rw [Remove_eq]
  rw [show violatesInvariant tree (env.Remove tree.IAVLTree key).orphaned ↔
      violatesInvariant { tree with IAVLTree := (env.Remove tree.IAVLTree key).tree }
        (env.Remove tree.IAVLTree key).orphaned from Iff.rfl]
  rw [← addOrphans_ok_iff]
  cases addOrphans { tree with IAVLTree := (env.Remove tree.IAVLTree key).tree }
      (env.Remove tree.IAVLTree key).orphaned with
  | ok t => simp
  | error e => simp

theorem not_violatesInvariant_of_not_persisted (tree : orphaningTree) (L : List IAVLNode)
    (h : ∀ n ∈ L, n.persisted = false) : ¬ violatesInvariant tree L := by
  rintro (⟨n, hn, hp, _⟩ | ⟨_, n, hn, hp⟩)
  · rw [h n hn] at hp
    cases hp
  · rw [h n hn] at hp
    cases hp

theorem SaveVersion_eq {W : Type} (env : Collaborators) (tree : orphaningTree) (version : Nat)
    (fn : IAVLNode → W → IAVLNode × W) (w : W) :
    SaveVersion env tree version fn w =
      ({ IAVLTree :=
            { root := rootAfter fn (env.SaveBranch tree.IAVLTree.ndb tree.IAVLTree.root) w,
              ndb := tree.IAVLTree.ndb },
          orphans := tree.orphans.deleteAll
            ((savedNodes fn (env.SaveBranch tree.IAVLTree.ndb tree.IAVLTree.root) w).map
              (fun n => n.hash)),
          rootVersion := tree.rootVersion },
        hookStateAfter fn (env.SaveBranch tree.IAVLTree.ndb tree.IAVLTree.root) w,
        (savedNodes fn (env.SaveBranch tree.IAVLTree.ndb tree.IAVLTree.root) w).flatMap
            (fun n => [Event.deleteOrphan n.hash, Event.onSave n]) ++
          [Event.saveBranchReturned tree.IAVLTree.ndb,
            Event.SaveOrphans tree.IAVLTree.ndb version
              (tree.orphans.deleteAll
                ((savedNodes fn (env.SaveBranch tree.IAVLTree.ndb tree.IAVLTree.root) w).map
                  (fun n => n.hash)))]) := by
  unfold SaveVersion
  simp only [exec_saveHook, List.nil_append]

theorem flushed_append_hook (nodes : List IAVLNode) (rest : List Event) :
    flushed (nodes.flatMap (fun n => [Event.deleteOrphan n.hash, Event.onSave n]) ++ rest) =
      flushed rest := by
  induction nodes with
  | nil => rfl
  | cons n tl ih => simpa [List.flatMap_cons, flushed] using ih

theorem flushed_SaveVersion {W : Type} (env : Collaborators) (tree : orphaningTree)
    (version : Nat) (fn : IAVLNode → W → IAVLNode × W) (w : W) :
    flushed (SaveVersion env tree version fn w).2.2 =
      [(version, (SaveVersion env tree version fn w).1.orphans)] := by
  rw [SaveVersion_eq, flushed_append_hook]
  rfl

theorem recordOrphans_append (m : OrphanMap) (L1 L2 : List IAVLNode) :
    recordOrphans m (L1 ++ L2) = recordOrphans (recordOrphans m L1) L2 := by
  simp [recordOrphans, List.filter_append, List.foldl_append]

theorem addOrphans_ok_orphans (tree tree1 : orphaningTree) (L : List IAVLNode)
    (h : addOrphans tree L = .ok tree1) :
    tree1 = { tree with orphans := recordOrphans tree.orphans L } := by
  induction L generalizing tree with
  | nil =>
    simp only [addOrphans, Except.ok.injEq] at h
    subst h
    rfl
  | cons n rest ih =>
    rw [addOrphans] at h
    rw [recordOrphans_cons]
    by_cases hp : n.persisted = true
    · simp only [hp, Bool.not_true, Bool.false_eq_true, if_false, if_true] at h ⊢
      split_ifs at h
      exact ih _ h
    · have hp2 : n.persisted = false := by simpa using hp
      simp only [hp2, Bool.not_false, if_true, Bool.false_eq_true, if_false] at h ⊢
      exact ih _ h

theorem Mutation.apply_ok (env : Collaborators) (tree tree1 : orphaningTree) (m : Mutation)
    (h : m.apply env tree = .ok tree1) :
    tree1 = { IAVLTree := (m.underlying env tree.IAVLTree).1,
              orphans := recordOrphans tree.orphans (m.underlying env tree.IAVLTree).2,
              rootVersion := tree.rootVersion } := by
  cases m with
  | Set key value =>
    simp only [Mutation.apply, Set_eq] at h
    cases hadd : addOrphans { tree with IAVLTree := (env.set tree.IAVLTree key value).tree }
        (env.set tree.IAVLTree key value).orphaned with
    | error e => simp [hadd] at h
    | ok t =>
      simp only [hadd, Except.ok.injEq] at h
      subst h
      exact addOrphans_ok_orphans _ _ _ hadd
  | Remove key =>
    simp only [Mutation.apply, Remove_eq] at h
    cases hadd : addOrphans { tree with IAVLTree := (env.Remove tree.IAVLTree key).tree }
        (env.Remove tree.IAVLTree key).orphaned with
    | error e => simp [hadd] at h
    | ok t =>
      simp only [hadd, Except.ok.injEq] at h
      subst h
      exact addOrphans_ok_orphans _ _ _ hadd

theorem applyAll_ok (env : Collaborators) (tree tree1 : orphaningTree) (muts : List Mutation)
    (h : applyAll env tree muts = .ok tree1) :
    tree1 = { IAVLTree := treeAfter env tree.IAVLTree muts,
              orphans := recordOrphans tree.orphans (superseded env tree.IAVLTree muts),
              rootVersion := tree.rootVersion } := by
  induction muts generalizing tree with
  | nil =>
    simp only [applyAll, Except.ok.injEq] at h
    subst h
    rfl
  | cons m rest ih =>
    rw [applyAll] at h
    cases hm : m.apply env tree with
    | error e => simp [hm] at h
    | ok t =>
      simp only [hm] at h
      have ht := Mutation.apply_ok env tree t m hm
      rw [ih t h, ht]
      simp [treeAfter, superseded, recordOrphans_append]

theorem OrphanMap.keys_delete_nodup (m : OrphanMap) (k : Bytes) (h : m.keys.Nodup) :
    (m.delete k).keys.Nodup := by
  unfold OrphanMap.keys OrphanMap.delete at *
  exact (List.Sublist.map _ (List.filter_sublist _)).nodup h

theorem OrphanMap.not_mem_keys_delete (m : OrphanMap) (k : Bytes) : k ∉ (m.delete k).keys := by
  simp [OrphanMap.keys, OrphanMap.delete, List.mem_map, List.mem_filter]

theorem OrphanMap.keys_put_nodup (m : OrphanMap) (k : Bytes) (v : Nat) (h : m.keys.Nodup) :
    (m.put k v).keys.Nodup := by
  show (OrphanMap.keys ((k, v) :: OrphanMap.delete m k)).Nodup
  simp only [OrphanMap.keys, List.map_cons, List.nodup_cons]
  exact ⟨OrphanMap.not_mem_keys_delete m k, OrphanMap.keys_delete_nodup m k h⟩

theorem OrphanMap.keys_deleteAll_nodup (m : OrphanMap) (ks : List Bytes) (h : m.keys.Nodup) :
    (m.deleteAll ks).keys.Nodup := by
  unfold OrphanMap.keys OrphanMap.deleteAll at *
  exact (List.Sublist.map _ (List.filter_sublist _)).nodup h

theorem recordOrphans_keys_nodup (m : OrphanMap) (L : List IAVLNode) (h : m.keys.Nodup) :
    (recordOrphans m L).keys.Nodup := by
  induction L generalizing m with
  | nil => exact h
  | cons n rest ih =>
    rw [recordOrphans_cons]
    split_ifs
    · exact ih _ (OrphanMap.keys_put_nodup m _ _ h)
    · exact ih _ h

theorem loadOrphans_eq (env : Collaborators) (tree : orphaningTree) (version : Nat) :
    loadOrphans env tree version =
      { tree with
        orphans := (env.traverseOrphansVersion tree.IAVLTree.ndb version).foldl
          (fun m kv => m.put kv.2 version) tree.orphans } := by
  unfold loadOrphans
  generalize env.traverseOrphansVersion tree.IAVLTree.ndb version = visited
  induction visited generalizing tree with
  | nil => rfl
  | cons kv rest ih =>
    rw [List.foldl_cons, ih]
    rfl

theorem get_foldl_put_version (visited : List (Bytes × Bytes)) (version : Nat) (m : OrphanMap)
    (k : Bytes) :
    (visited.foldl (fun m kv => m.put kv.2 version) m).get k =
      if k ∈ visited.map Prod.snd then some version else m.get k := by
  induction visited generalizing m with
  | nil => simp
  | cons kv rest ih =>
    rw [List.foldl_cons, ih, OrphanMap.get_put]
    by_cases h1 : k ∈ rest.map Prod.snd
    · simp [h1]
    · by_cases h2 : k = kv.2
      · simp [h2]
      · have h3 : ¬ kv.2 = k := fun e => h2 e.symm
        simp [h1, h2, h3]

/-! ## Properties of the tracker, by claim -/

/-- C1: when the root version is not zero and every persisted node of the
list `L` that the underlying tree's `set` or `Remove` returns has a non-empty
hash, `Set` and `Remove` complete and leave the pending map equal to the
previous map updated, in list order, with `hash -> version` for the persisted
nodes of `L`: a hash reads the version of the last persisted node of `L` with
that hash, or what it read before when there is none; a list without a
persisted node leaves the map as it was. -/
theorem C1_set_remove_record_orphans (tree : orphaningTree) (L : List IAVLNode)
    (hroot : tree.rootVersion ≠ 0)
    (hhash : ∀ n ∈ L, n.persisted = true → n.hash ≠ []) :
    (∀ (env : Collaborators) (key value : Bytes),
        (env.set tree.IAVLTree key value).orphaned = L →
        Set env tree key value = .ok
          ({ IAVLTree := (env.set tree.IAVLTree key value).tree,
             orphans := recordOrphans tree.orphans L,
             rootVersion := tree.rootVersion },
            (env.set tree.IAVLTree key value).updated)) ∧
    (∀ (env : Collaborators) (key : Bytes),
        (env.Remove tree.IAVLTree key).orphaned = L →
        Remove env tree key = .ok
          ({ IAVLTree := (env.Remove tree.IAVLTree key).tree,
             orphans := recordOrphans tree.orphans L,
             rootVersion := tree.rootVersion },
            (env.Remove tree.IAVLTree key).val, (env.Remove tree.IAVLTree key).removed)) ∧
    (∀ h : Bytes, (recordOrphans tree.orphans L).get h =
        match (L.filter (fun n => n.persisted)).reverse.find? (fun n => decide (n.hash = h)) with
        | some n => some n.version
        | none => tree.orphans.get h) ∧
    ((∀ n ∈ L, n.persisted = false) → recordOrphans tree.orphans L = tree.orphans) := by
  refine ⟨?_, ?_, get_recordOrphans tree.orphans L, recordOrphans_of_not_persisted tree.orphans L⟩
  · intro env key value hL
    rw [Set_eq, hL,
      addOrphans_eq_ok { tree with IAVLTree := (env.set tree.IAVLTree key value).tree } L hroot
        hhash]
  · intro env key hL
    rw [Remove_eq, hL,
      addOrphans_eq_ok { tree with IAVLTree := (env.Remove tree.IAVLTree key).tree } L hroot
        hhash]

/-- C1, at a tracker of root version 1 over the persisted leaf of key `a`:
`Set` of the same key supersedes that leaf and records its hash with
version 1. -/
theorem C1_set_remove_record_orphans_witness :
    Set (demo [] (fun _ => []))
        { IAVLTree := { root := some leafA1, ndb := 0 }, orphans := [], rootVersion := 1 }
        [97] [50] =
      .ok ({ IAVLTree := { root := some (demoLeaf [97] [50]), ndb := 0 },
             orphans := [([0xA0, 97, 0, 49], 1)],
             rootVersion := 1 }, true) :=
  (C1_set_remove_record_orphans
    { IAVLTree := { root := some leafA1, ndb := 0 }, orphans := [], rootVersion := 1 }
    [leafA1] (by decide) (by decide)).1 (demo [] (fun _ => [])) [97] [50] rfl

/-- C2: `Set` and `Remove` abort with a sanity panic exactly when the list of
superseded nodes holds a persisted node with an empty hash, or holds a
persisted node while the root version is zero; otherwise they complete. A
list of never-persisted nodes never aborts, whatever the root version. -/
theorem C2_abort_iff_invariant_violated (env : Collaborators) (tree : orphaningTree)
    (key value : Bytes) :
    ((∃ msg, Set env tree key value = .error (.sanity msg)) ↔
        ((∃ n ∈ (env.set tree.IAVLTree key value).orphaned, n.persisted = true ∧ n.hash = []) ∨
          (tree.rootVersion = 0 ∧
            ∃ n ∈ (env.set tree.IAVLTree key value).orphaned, n.persisted = true))) ∧
    ((∃ r, Set env tree key value = .ok r) ↔
        ¬ ((∃ n ∈ (env.set tree.IAVLTree key value).orphaned, n.persisted = true ∧ n.hash = []) ∨
          (tree.rootVersion = 0 ∧
            ∃ n ∈ (env.set tree.IAVLTree key value).orphaned, n.persisted = true))) ∧
    ((∃ msg, Remove env tree key = .error (.sanity msg)) ↔
        ((∃ n ∈ (env.Remove tree.IAVLTree key).orphaned, n.persisted = true ∧ n.hash = []) ∨
          (tree.rootVersion = 0 ∧
            ∃ n ∈ (env.Remove tree.IAVLTree key).orphaned, n.persisted = true))) ∧
    ((∃ r, Remove env tree key = .ok r) ↔
        ¬ ((∃ n ∈ (env.Remove tree.IAVLTree key).orphaned, n.persisted = true ∧ n.hash = []) ∨
          (tree.rootVersion = 0 ∧
            ∃ n ∈ (env.Remove tree.IAVLTree key).orphaned, n.persisted = true))) ∧
    ((∀ n ∈ (env.set tree.IAVLTree key value).orphaned, n.persisted = false) →
        ∃ r, Set env tree key value = .ok r) ∧
    ((∀ n ∈ (env.Remove tree.IAVLTree key).orphaned, n.persisted = false) →
        ∃ r, Remove env tree key = .ok r) :=
  ⟨Set_error_iff env tree key value, Set_ok_iff env tree key value,
    Remove_error_iff env tree key, Remove_ok_iff env tree key,
    fun h => (Set_ok_iff env tree key value).2 (not_violatesInvariant_of_not_persisted _ _ h),
    fun h => (Remove_ok_iff env tree key).2 (not_violatesInvariant_of_not_persisted _ _ h)⟩

/-- C3: `SaveVersion(V, fn)` deletes the pending entry of every node the save
callback is invoked on right before `fn` is invoked on that node, and after
the branch save has returned it hands `SaveOrphans` the version `V` and the
pending map from before the call without the hashes of those nodes; every
other entry is unchanged. Nothing else is flushed. -/
theorem C3_saveVersion_flushes_unsaved_orphans {W : Type} (env : Collaborators)
    (tree : orphaningTree) (V : Nat) (fn : IAVLNode → W → IAVLNode × W) (w : W) :
    (SaveVersion env tree V fn w).2.2 =
        (savedNodes fn (env.SaveBranch tree.IAVLTree.ndb tree.IAVLTree.root) w).flatMap
            (fun n => [Event.deleteOrphan n.hash, Event.onSave n]) ++
          [Event.saveBranchReturned tree.IAVLTree.ndb,
            Event.SaveOrphans tree.IAVLTree.ndb V
              (tree.orphans.deleteAll
                ((savedNodes fn (env.SaveBranch tree.IAVLTree.ndb tree.IAVLTree.root) w).map
                  (fun n => n.hash)))] ∧
    flushed (SaveVersion env tree V fn w).2.2 =
        [(V, tree.orphans.deleteAll
          ((savedNodes fn (env.SaveBranch tree.IAVLTree.ndb tree.IAVLTree.root) w).map
            (fun n => n.hash)))] ∧
    (∀ h : Bytes,
        (tree.orphans.deleteAll
          ((savedNodes fn (env.SaveBranch tree.IAVLTree.ndb tree.IAVLTree.root) w).map
            (fun n => n.hash))).get h =
          if h ∈ (savedNodes fn (env.SaveBranch tree.IAVLTree.ndb tree.IAVLTree.root) w).map
              (fun n => n.hash)
          then none else tree.orphans.get h) ∧
    (SaveVersion env tree V fn w).2.1 =
        hookStateAfter fn (env.SaveBranch tree.IAVLTree.ndb tree.IAVLTree.root) w := by
  refine ⟨?_, ?_, fun h => OrphanMap.get_deleteAll _ _ h, ?_⟩
  · rw [SaveVersion_eq]
  · rw [flushed_SaveVersion, SaveVersion_eq]
  · rw [SaveVersion_eq]

/-- C4: after `Unorphan(h, v)` the pending map has no entry for `h`, every
entry under another hash reads as before, the root and the root version are
untouched, `ndb.Unorphan(h, v)` is the one call made to the node database,
and a second `Unorphan(h, v)` leaves the pending map as the first left it. -/
theorem C4_unorphan_forgets_hash (tree : orphaningTree) (h : Bytes) (v : Nat) :
    (Unorphan tree h v).1.orphans.get h = none ∧
    (∀ h1 : Bytes, (Unorphan tree h v).1.orphans.get h1 =
        if h1 = h then none else tree.orphans.get h1) ∧
    (Unorphan tree h v).1.orphans = tree.orphans.filter (fun e => decide (e.1 ≠ h)) ∧
    (Unorphan tree h v).1.IAVLTree = tree.IAVLTree ∧
    (Unorphan tree h v).1.rootVersion = tree.rootVersion ∧
    (Unorphan tree h v).2 = [Event.Unorphan tree.IAVLTree.ndb h v] ∧
    (Unorphan (Unorphan tree h v).1 h v).1.orphans = (Unorphan tree h v).1.orphans ∧
    (Unorphan (Unorphan tree h v).1 h v).1 = (Unorphan tree h v).1 := by
  have h1 : (Unorphan tree h v).1 = { tree with orphans := tree.orphans.delete h } :=
    deleteOrphan_fst tree h
  have h2 : (Unorphan (Unorphan tree h v).1 h v).1 = (Unorphan tree h v).1 := by
    rw [h1]
    show (deleteOrphan _ h).1 = _
    rw [deleteOrphan_fst]
    simp [OrphanMap.delete_delete]
  refine ⟨?_, ?_, ?_, ?_, ?_, rfl, ?_, h2⟩
  · rw [h1]
    simp [OrphanMap.get_delete]
  · intro k
    rw [h1]
    exact OrphanMap.get_delete _ _ _
  · rw [h1]
    rfl
  · rw [h1]
  · rw [h1]
  · rw [h2]

/-- C5: on the tracker that `newOrphaningTree` builds over an empty tree (nil
root, root version 0 by the nil check of `newOrphaningTree`), `Clone` does not
return a tracker: the read of the version through the nil root panics. -/
theorem C5_clone_of_empty_tree_panics :
    newOrphaningTree { root := none, ndb := 0 } =
        { IAVLTree := { root := none, ndb := 0 }, orphans := [], rootVersion := 0 } ∧
    Clone (newOrphaningTree { root := none, ndb := 0 }) = .error .nilDereference :=
  ⟨rfl, rfl⟩

/-- C6, as stated, fails: on the tracker built by `newOrphaningTree` over an
empty tree, `Set(a, 1)` and `SaveVersion(1)` go through (the save flushes an
empty map and leaves the root version at 0), the underlying tree then reports
the persisted version-1 leaf as superseded by `Set(a, 2)`, and that `Set`
aborts with the root-version sanity panic. -/
theorem C6_second_set_aborts :
    Set (demo [] (fun _ => [])) (newOrphaningTree { root := none, ndb := 0 }) [97] [49] =
        .ok ({ IAVLTree := { root := some (demoLeaf [97] [49]), ndb := 0 }, orphans := [],
               rootVersion := 0 }, false) ∧
    SaveVersion (demo [] (fun _ => []))
        { IAVLTree := { root := some (demoLeaf [97] [49]), ndb := 0 }, orphans := [],
          rootVersion := 0 } 1 (stamp 1) () =
      ({ IAVLTree := { root := some leafA1, ndb := 0 }, orphans := [], rootVersion := 0 }, (),
        [Event.deleteOrphan [0xA0, 97, 0, 49],
          Event.onSave { demoLeaf [97] [49] with hash := [0xA0, 97, 0, 49] },
          Event.saveBranchReturned 0, Event.SaveOrphans 0 1 []]) ∧
    ((demo [] (fun _ => [])).set { root := some leafA1, ndb := 0 } [97] [50]).orphaned =
        [leafA1] ∧
    Set (demo [] (fun _ => []))
        { IAVLTree := { root := some leafA1, ndb := 0 }, orphans := [], rootVersion := 0 }
        [97] [50] =
      .error (.sanity "Expected root version not to be zero") :=
  ⟨rfl, rfl, rfl, rfl⟩

/-- C6, amended: starting from the tracker built by `newOrphaningTree` over an
empty tree, after a completed `Set(key, v1)` and `SaveVersion(1)` the root
version is still 0, so the following `Set(key, v2)`, for which the underlying
tree reports the persisted version-1 leaf as superseded, aborts with the
root-version sanity panic. On the `Clone` of the tracker taken after the save
(root version 1, read from the saved root) the same `Set` completes, and the
following `SaveVersion(2)` flushes one map, which holds the leaf's hash with
version 1 unless the branch save of version 2 saved a node of that hash. -/
theorem C6_scenario_after_reattach {W : Type} (env : Collaborators) (ndb : Nat)
    (key v1 v2 : Bytes) (fn1 fn2 : IAVLNode → W → IAVLNode × W) (w w2 : W) (leaf : IAVLNode)
    (t1 : orphaningTree) (u1 : Bool)
    (hset1 : Set env (newOrphaningTree { root := none, ndb := ndb }) key v1 = .ok (t1, u1))
    (hver : ((SaveVersion env t1 1 fn1 w).1.IAVLTree.root).map (fun r => r.version) = some 1)
    (hsup : (env.set (SaveVersion env t1 1 fn1 w).1.IAVLTree key v2).orphaned = [leaf])
    (hp : leaf.persisted = true) (hv : leaf.version = 1) (hh : leaf.hash ≠ []) :
    (SaveVersion env t1 1 fn1 w).1.rootVersion = 0 ∧
    Set env (SaveVersion env t1 1 fn1 w).1 key v2 =
        .error (.sanity "Expected root version not to be zero") ∧
    ∃ t3 t4 u,
      Clone (SaveVersion env t1 1 fn1 w).1 = .ok t3 ∧ t3.rootVersion = 1 ∧
      Set env t3 key v2 = .ok (t4, u) ∧
      ∃ M, flushed (SaveVersion env t4 2 fn2 w2).2.2 = [(2, M)] ∧
        M.get leaf.hash =
          if leaf.hash ∈ (savedNodes fn2 (env.SaveBranch t4.IAVLTree.ndb t4.IAVLTree.root) w2).map
              (fun n => n.hash)
          then none else some 1 := by
  have hlen : ¬ leaf.hash.length = 0 := fun h0 => hh (List.length_eq_zero.mp h0)
  -- the root version after the first `Set` and the first save
  have hr1 : t1.rootVersion = 0 := by
    rw [Set_eq] at hset1
    cases hadd : addOrphans
        { newOrphaningTree { root := none, ndb := ndb } with
          IAVLTree := (env.set (newOrphaningTree { root := none, ndb := ndb }).IAVLTree key v1).tree }
        (env.set (newOrphaningTree { root := none, ndb := ndb }).IAVLTree key v1).orphaned with
    | error e => simp [hadd] at hset1
    | ok t =>
      simp only [hadd, Except.ok.injEq, Prod.mk.injEq] at hset1
      rw [← hset1.1]
      exact (addOrphans_rootVersion _ _ _ hadd).1
  have hr2 : (SaveVersion env t1 1 fn1 w).1.rootVersion = 0 := by
    rw [SaveVersion_eq]
    exact hr1
  refine ⟨hr2, ?_, ?_⟩
  · rw [Set_eq, hsup]
    simp [addOrphans, hp, hlen, hr2]
  · cases hroot : (SaveVersion env t1 1 fn1 w).1.IAVLTree.root with
    | none => simp [hroot] at hver
    | some root =>
      have hrv : root.version = 1 := by simpa [hroot] using hver
      obtain ⟨nd, hnd⟩ : ∃ nd, (SaveVersion env t1 1 fn1 w).1.IAVLTree.ndb = nd := ⟨_, rfl⟩
      have htree : (SaveVersion env t1 1 fn1 w).1.IAVLTree = { root := some root, ndb := nd } := by
        rw [← hroot, ← hnd]
      rw [htree] at hsup
      refine ⟨{ IAVLTree := { root := some root, ndb := nd }, rootVersion := 1, orphans := [] },
        { IAVLTree := (env.set { root := some root, ndb := nd } key v2).tree, rootVersion := 1,
          orphans := [(leaf.hash, 1)] },
        (env.set { root := some root, ndb := nd } key v2).updated, ?_, rfl, ?_, ?_⟩
      · simp [Clone, hroot, hnd, hrv]
      · rw [Set_eq]
        simp only [hsup]
        simp [addOrphans, hp, hlen, hv, OrphanMap.put, OrphanMap.delete]
      · refine ⟨_, flushed_SaveVersion env _ 2 fn2 w2, ?_⟩
        rw [SaveVersion_eq]
        simp only [OrphanMap.get_deleteAll]
        split_ifs
        · rfl
        · simp [OrphanMap.get]

/-- C6, amended, on the stand-in tree: the second `Set` aborts on the tracker
itself and completes on its clone, whose `SaveVersion(2)` flushes the hash of
the version-1 leaf with version 1. -/
theorem C6_scenario_after_reattach_witness :
    (SaveVersion (demo [] (fun _ => []))
        { IAVLTree := { root := some (demoLeaf [97] [49]), ndb := 0 }, orphans := [],
          rootVersion := 0 } 1 (stamp 1) ()).1.rootVersion = 0 ∧
    Set (demo [] (fun _ => []))
        (SaveVersion (demo [] (fun _ => []))
          { IAVLTree := { root := some (demoLeaf [97] [49]), ndb := 0 }, orphans := [],
            rootVersion := 0 } 1 (stamp 1) ()).1 [97] [50] =
        .error (.sanity "Expected root version not to be zero") ∧
    ∃ t3 t4 u,
      Clone (SaveVersion (demo [] (fun _ => []))
          { IAVLTree := { root := some (demoLeaf [97] [49]), ndb := 0 }, orphans := [],
            rootVersion := 0 } 1 (stamp 1) ()).1 = .ok t3 ∧ t3.rootVersion = 1 ∧
      Set (demo [] (fun _ => [])) t3 [97] [50] = .ok (t4, u) ∧
      ∃ M, flushed (SaveVersion (demo [] (fun _ => [])) t4 2 (stamp 2) ()).2.2 = [(2, M)] ∧
        M.get leafA1.hash =
          if leafA1.hash ∈ (savedNodes (stamp 2)
              ((demo [] (fun _ => [])).SaveBranch t4.IAVLTree.ndb t4.IAVLTree.root) ()).map
              (fun n => n.hash)
          then none else some 1 :=
  C6_scenario_after_reattach (demo [] (fun _ => [])) 0 [97] [49] [50] (stamp 1) (stamp 2) () ()
    leafA1
    { IAVLTree := { root := some (demoLeaf [97] [49]), ndb := 0 }, orphans := [],
      rootVersion := 0 }
    false rfl rfl rfl rfl rfl (by decide)

/-- C7, at the failing input: the save of version 2 flushed the hash of the
version-1 leaf with its creation version 1, so the node database keeps the
record with `createdAtVersion = 1` for version 2; `Load` of the version-2 root
replays that record and stores the hash with version 2, the version of the
loaded root, not with the creation version 1. -/
theorem C7_load_stores_root_version :
    recordsAfterSave2 2 = [{ hash := leafA1.hash, createdAtVersion := 1 }] ∧
    Load (demo [leafA2] recordsAfterSave2) (newOrphaningTree { root := none, ndb := 0 })
        leafA2.hash =
      .ok { IAVLTree := { root := some leafA2, ndb := 0 }, orphans := [(leafA1.hash, 2)],
            rootVersion := 2 } ∧
    OrphanMap.get [(leafA1.hash, 2)] leafA1.hash = some 2 :=
  ⟨rfl, rfl, rfl⟩

/-- C8, as stated, fails: a tracker of root version 1 supersedes the persisted
version-1 leaf, `SaveVersion(2)` flushes its hash, no mutation follows, and
`SaveVersion(3)` flushes the same entry again although the mutations between
the two saves superseded nothing. -/
theorem C8_old_entry_flushed_again :
    Set (demo [] (fun _ => [])) (newOrphaningTree { root := some leafA1, ndb := 0 }) [97] [50] =
        .ok ({ IAVLTree := { root := some (demoLeaf [97] [50]), ndb := 0 },
               orphans := [(leafA1.hash, 1)], rootVersion := 1 }, true) ∧
    flushed (SaveVersion (demo [] (fun _ => []))
        { IAVLTree := { root := some (demoLeaf [97] [50]), ndb := 0 },
          orphans := [(leafA1.hash, 1)], rootVersion := 1 } 2 (stamp 2) ()).2.2 =
      [(2, [(leafA1.hash, 1)])] ∧
    (SaveVersion (demo [] (fun _ => []))
        { IAVLTree := { root := some (demoLeaf [97] [50]), ndb := 0 },
          orphans := [(leafA1.hash, 1)], rootVersion := 1 } 2 (stamp 2) ()).1 =
      { IAVLTree := { root := some leafA2, ndb := 0 }, orphans := [(leafA1.hash, 1)],
        rootVersion := 1 } ∧
    applyAll (demo [] (fun _ => []))
        { IAVLTree := { root := some leafA2, ndb := 0 }, orphans := [(leafA1.hash, 1)],
          rootVersion := 1 } [] =
      .ok { IAVLTree := { root := some leafA2, ndb := 0 }, orphans := [(leafA1.hash, 1)],
            rootVersion := 1 } ∧
    superseded (demo [] (fun _ => [])) { root := some leafA2, ndb := 0 } [] = [] ∧
    flushed (SaveVersion (demo [] (fun _ => []))
        { IAVLTree := { root := some leafA2, ndb := 0 }, orphans := [(leafA1.hash, 1)],
          rootVersion := 1 } 3 (stamp 3) ()).2.2 =
      [(3, [(leafA1.hash, 1)])] :=
  ⟨rfl, rfl, rfl, rfl, rfl, rfl⟩

/-- C8, amended: for two successive saves `SaveVersion(V-1, _)` and
`SaveVersion(V, _)` on a tracker with a sequence of `Set`/`Remove` calls in
between that all complete, the map flushed for `V` is the map flushed for
`V-1`, updated in order with `hash -> version` for the persisted nodes those
calls superseded, without the hashes of the nodes saved by the branch save of
`V`. The save of `V-1` clears nothing: an entry it flushed is flushed again
for `V` unless its hash was saved again or recorded anew. Every hash is
flushed at most once when the pending map started with distinct keys. -/
theorem C8_flush_accumulates_across_saves {W : Type} (env : Collaborators)
    (tree tree2 : orphaningTree) (V : Nat) (fn1 fn2 : IAVLNode → W → IAVLNode × W) (w w2 : W)
    (muts : List Mutation)
    (hmuts : applyAll env (SaveVersion env tree (V - 1) fn1 w).1 muts = .ok tree2) :
    ∃ M1 M2,
      flushed (SaveVersion env tree (V - 1) fn1 w).2.2 = [(V - 1, M1)] ∧
      flushed (SaveVersion env tree2 V fn2 w2).2.2 = [(V, M2)] ∧
      M2 = (recordOrphans M1
              (superseded env (SaveVersion env tree (V - 1) fn1 w).1.IAVLTree muts)).deleteAll
            ((savedNodes fn2 (env.SaveBranch tree2.IAVLTree.ndb tree2.IAVLTree.root) w2).map
              (fun n => n.hash)) ∧
      (∀ h : Bytes, M2.get h =
        if h ∈ (savedNodes fn2 (env.SaveBranch tree2.IAVLTree.ndb tree2.IAVLTree.root) w2).map
            (fun n => n.hash)
        then none
        else
          match ((superseded env (SaveVersion env tree (V - 1) fn1 w).1.IAVLTree muts).filter
              (fun n => n.persisted)).reverse.find? (fun n => decide (n.hash = h)) with
          | some n => some n.version
          | none => M1.get h) ∧
      (tree.orphans.keys.Nodup → M2.keys.Nodup) := by
  have h2 := applyAll_ok env _ _ muts hmuts
  refine ⟨(SaveVersion env tree (V - 1) fn1 w).1.orphans, (SaveVersion env tree2 V fn2 w2).1.orphans,
    flushed_SaveVersion env tree (V - 1) fn1 w, flushed_SaveVersion env tree2 V fn2 w2, ?_, ?_, ?_⟩
  · rw [SaveVersion_eq env tree2]
    simp only
    rw [h2]
  · intro h
    rw [SaveVersion_eq env tree2]
    simp only
    rw [OrphanMap.get_deleteAll]
    split_ifs
    · rfl
    · rw [h2]
      exact get_recordOrphans _ _ h
  · intro hnd
    rw [SaveVersion_eq env tree2]
    simp only
    apply OrphanMap.keys_deleteAll_nodup
    rw [h2]
    apply recordOrphans_keys_nodup
    rw [SaveVersion_eq env tree]
    exact OrphanMap.keys_deleteAll_nodup _ _ hnd

/-- C8, amended, on the stand-in tree: a tracker of root version 1 with the
pending entry of an earlier leaf saves version 2, supersedes the version-1
leaf, and saves version 3; the flush for version 3 holds both hashes. -/
theorem C8_flush_accumulates_across_saves_witness :
    ∃ M1 M2,
      flushed (SaveVersion (demo [] (fun _ => []))
          { IAVLTree := { root := some leafA1, ndb := 0 }, orphans := [([7], 1)],
            rootVersion := 1 } (3 - 1) (stamp 2) ()).2.2 = [(3 - 1, M1)] ∧
      flushed (SaveVersion (demo [] (fun _ => []))
          { IAVLTree := { root := some (demoLeaf [97] [50]), ndb := 0 },
            orphans := [(leafA1.hash, 1), ([7], 1)], rootVersion := 1 } 3 (stamp 3) ()).2.2 =
        [(3, M2)] ∧
      M2 = [(leafA1.hash, 1), ([7], 1)] ∧ M1 = [([7], 1)] := by
  obtain ⟨M1, M2, h1, h2, h3, -, -⟩ :=
    C8_flush_accumulates_across_saves (demo [] (fun _ => []))
      { IAVLTree := { root := some leafA1, ndb := 0 }, orphans := [([7], 1)], rootVersion := 1 }
      { IAVLTree := { root := some (demoLeaf [97] [50]), ndb := 0 },
        orphans := [(leafA1.hash, 1), ([7], 1)], rootVersion := 1 }
      3 (stamp 2) (stamp 3) () () [Mutation.Set [97] [50]] rfl
  have hM1 : M1 = [([7], 1)] := by
    have h := h1
    rw [flushed_SaveVersion] at h
    simp only [List.cons.injEq, Prod.mk.injEq, and_true, true_and] at h
    rw [← h]
    rfl
  refine ⟨M1, M2, h1, h2, ?_, hM1⟩
  rw [h3, hM1]
  rfl

/-! ## Further properties of the tracker -/

/-- On a tracker whose root is not nil, `Clone` returns a tracker with the same
root and node database handle, an empty pending map and the version of that
root as root version. -/
theorem Clone_of_root (tree : orphaningTree) (root : IAVLNode)
    (h : tree.IAVLTree.root = some root) :
    Clone tree = .ok { IAVLTree := tree.IAVLTree, orphans := [], rootVersion := root.version } := by
  obtain ⟨⟨rt, nd⟩, o, rv⟩ := tree
  simp only at h
  subst h
  rfl

/-- The clone of the tracker saved in the run above, at root version 1. -/
theorem Clone_of_root_witness :
    Clone { IAVLTree := { root := some leafA1, ndb := 0 }, orphans := [([7], 1)],
            rootVersion := 0 } =
      .ok { IAVLTree := { root := some leafA1, ndb := 0 }, orphans := [], rootVersion := 1 } :=
  Clone_of_root _ leafA1 rfl

/-- When the underlying `Load` attaches a root, `Load` of the tracker
completes: the root version is the version of the loaded root, every hash
replayed for that version reads that version, and every other hash reads what
it read before. -/
theorem Load_stores_loaded_version (env : Collaborators) (tree : orphaningTree)
    (rootHash : Bytes) (r : IAVLNode) (h : (env.Load tree.IAVLTree rootHash).root = some r) :
    ∃ t, Load env tree rootHash = .ok t ∧ t.rootVersion = r.version ∧
      t.IAVLTree = env.Load tree.IAVLTree rootHash ∧
      ∀ k : Bytes, t.orphans.get k =
        if k ∈ (env.traverseOrphansVersion (env.Load tree.IAVLTree rootHash).ndb r.version).map
            Prod.snd
        then some r.version else tree.orphans.get k := by
  refine ⟨loadOrphans env
      { tree with IAVLTree := env.Load tree.IAVLTree rootHash, rootVersion := r.version }
      r.version, ?_, ?_, ?_, ?_⟩
  · unfold Load
    simp only [h]
  · rw [loadOrphans_eq]
  · rw [loadOrphans_eq]
  · intro k
    rw [loadOrphans_eq]
    exact get_foldl_put_version _ _ _ k

/-- The load of the version-2 root over the records kept for version 2. -/
theorem Load_stores_loaded_version_witness :
    ∃ t, Load (demo [leafA2] recordsAfterSave2) (newOrphaningTree { root := none, ndb := 0 })
        leafA2.hash = .ok t ∧ t.rootVersion = leafA2.version ∧
      t.IAVLTree = (demo [leafA2] recordsAfterSave2).Load { root := none, ndb := 0 } leafA2.hash ∧
      ∀ k : Bytes, t.orphans.get k =
        if k ∈ ((demo [leafA2] recordsAfterSave2).traverseOrphansVersion
            ((demo [leafA2] recordsAfterSave2).Load { root := none, ndb := 0 } leafA2.hash).ndb
            leafA2.version).map Prod.snd
        then some leafA2.version else OrphanMap.get [] k :=
  Load_stores_loaded_version (demo [leafA2] recordsAfterSave2)
    (newOrphaningTree { root := none, ndb := 0 }) leafA2.hash leafA2 rfl

/-- When the underlying `Load` leaves the root nil, `Load` of the tracker
panics on the read of the root's version. -/
theorem Load_of_nil_root_panics :
    Load (demo [] (fun _ => [])) (newOrphaningTree { root := none, ndb := 0 }) [] =
      .error .nilDereference :=
  rfl

theorem OrphanMap.mem_put (m : OrphanMap) (k : Bytes) (v : Nat) (e : Bytes × Nat)
    (h : e ∈ m.put k v) : e = (k, v) ∨ e ∈ m := by
  rcases List.mem_cons.mp h with h1 | h1
  · exact Or.inl h1
  · exact Or.inr (List.mem_filter.mp h1).1

theorem recordOrphans_mem (m : OrphanMap) (L : List IAVLNode) (e : Bytes × Nat)
    (h : e ∈ recordOrphans m L) :
    e ∈ m ∨ ∃ n ∈ L, n.persisted = true ∧ n.hash = e.1 ∧ n.version = e.2 := by
  induction L generalizing m with
  | nil => exact Or.inl h
  | cons x rest ih =>
    rw [recordOrphans_cons] at h
    by_cases hp : x.persisted = true
    · rw [if_pos hp] at h
      rcases ih _ h with h1 | ⟨n, hn, hn2⟩
      · rcases OrphanMap.mem_put _ _ _ _ h1 with h2 | h2
        · refine Or.inr ⟨x, List.mem_cons_self _ _, hp, ?_, ?_⟩
          · rw [h2]
          · rw [h2]
        · exact Or.inl h2
      · exact Or.inr ⟨n, List.mem_cons_of_mem _ hn, hn2⟩
    · rw [if_neg hp] at h
      rcases ih _ h with h1 | ⟨n, hn, hn2⟩
      · exact Or.inl h1
      · exact Or.inr ⟨n, List.mem_cons_of_mem _ hn, hn2⟩

/-- After a sequence of `Set`/`Remove` calls that all complete, every entry of
the pending map either was there before or pairs the hash of a persisted node
that the calls superseded with the version of that node. -/
theorem pending_entries_of_mutations (env : Collaborators) (tree tree2 : orphaningTree)
    (muts : List Mutation) (h : applyAll env tree muts = .ok tree2) :
    ∀ e ∈ tree2.orphans,
      e ∈ tree.orphans ∨
        ∃ n ∈ superseded env tree.IAVLTree muts,
          n.persisted = true ∧ n.hash = e.1 ∧ n.version = e.2 := by
  intro e he
  rw [applyAll_ok env tree tree2 muts h] at he
  exact recordOrphans_mem _ _ e he

/-- The entry recorded by `Set` of key `a` on the tracker over the version-1
leaf comes from that leaf. -/
theorem pending_entries_of_mutations_witness :
    (leafA1.hash, 1) ∈ (newOrphaningTree { root := some leafA1, ndb := 0 }).orphans ∨
      ∃ n ∈ superseded (demo [] (fun _ => []))
          (newOrphaningTree { root := some leafA1, ndb := 0 }).IAVLTree
          [Mutation.Set [97] [50]],
        n.persisted = true ∧ n.hash = leafA1.hash ∧ n.version = 1 :=
  pending_entries_of_mutations (demo [] (fun _ => []))
    (newOrphaningTree { root := some leafA1, ndb := 0 })
    { IAVLTree := { root := some (demoLeaf [97] [50]), ndb := 0 },
      orphans := [(leafA1.hash, 1)], rootVersion := 1 }
    [Mutation.Set [97] [50]] rfl (leafA1.hash, 1) (List.mem_cons_self _ _)

end iavl

namespace iaviewer

open iavl (Bytes)

/-! ## Properties of `iaviewer`, by claim -/

/-- C9, at the failing input: for the single byte 0x7F (DEL, not printable)
`encodeID` returns the byte itself, where the encoding of printable ASCII
(0x20 to 0x7E) described by the comment gives the hexadecimal text `7F`; so
does `parseWeaveKey` on that key. -/
theorem C9_encodeID_keeps_del :
    encodeID [0x7F] = [0x7F] ∧ encodePrintable [0x7F] = [55, 70] ∧
    parseWeaveKey [0x7F] = [0x7F] ∧
    parseWeaveKey [97, 58, 0x7F] = [97, 58, 0x7F] ∧
    encodePrintable [97] ++ 58 :: encodePrintable [0x7F] = [97, 58, 55, 70] := by
  decide

/-- C10, at the failing input: with three arguments (or four, the fourth a
version number) that pass the usage check and a database that opens, the
commands `balance` and `nonce` read `args[4]` and the run ends in the
index-out-of-range panic. -/
theorem C10_balance_reads_past_the_arguments :
    main friendly ["balance", "/data/application.db", "s/k:bank/"] = .indexOutOfRange 4 3 ∧
    main friendly ["nonce", "/data/application.db", "s/k:acc/"] = .indexOutOfRange 4 3 ∧
    main friendly ["balance", "/data/application.db", "s/k:bank/", "7"] =
      .indexOutOfRange 4 4 ∧
    main friendly ["nonce", "/data/application.db", "s/k:acc/", "7"] = .indexOutOfRange 4 4 := by
  decide


/-! ## Further properties of `iaviewer` -/

theorem encodeIDLoop_eq (id rest : Bytes) :
    encodeIDLoop id rest =
      if rest.all (fun b => decide (0x20 ≤ b ∧ b < 0x80)) then id
      else ToUpper (EncodeToString id) := by
  induction rest with
  | nil => rfl
  | cons b tl ih =>
    rw [encodeIDLoop, ih]
    by_cases hb : b < 0x20 ∨ b ≥ 0x80
    · have hb2 : ¬ (0x20 ≤ b ∧ b < 0x80) := by omega
      simp [hb, hb2]
    · have hb2 : 0x20 ≤ b ∧ b < 0x80 := by omega
      simp only [hb, if_false, List.all_cons, hb2, and_self, decide_True, Bool.true_and]

/-- The bytes `encodeID` returns: the identifier itself when every byte lies
in 0x20 to 0x7F, its upper-case hexadecimal encoding otherwise. -/
theorem encodeID_eq (id : Bytes) :
    encodeID id =
      if id.all (fun b => decide (0x20 ≤ b ∧ b < 0x80)) then id
      else ToUpper (EncodeToString id) :=
  encodeIDLoop_eq id id

/-- On identifiers without the byte 0x7F, `encodeID` is the encoding that
keeps printable ASCII (0x20 to 0x7E) and writes everything else in upper-case
hexadecimal. -/
theorem encodeID_eq_encodePrintable (id : Bytes) (h : 0x7F ∉ id) :
    encodeID id = encodePrintable id := by
  rw [encodeID_eq, encodePrintable]
  have hall : ∀ l : Bytes, 0x7F ∉ l →
      l.all (fun b => decide (0x20 ≤ b ∧ b < 0x80)) =
        l.all (fun b => decide (0x20 ≤ b ∧ b ≤ 0x7E)) := by
    intro l
    induction l with
    | nil => intro _; rfl
    | cons b tl ih =>
      intro hl
      have hne : b ≠ 0x7F := fun e => hl (e ▸ List.mem_cons_self _ _)
      rw [List.all_cons, List.all_cons, ih (fun e => hl (List.mem_cons_of_mem _ e))]
      congr 1
      by_cases h1 : 0x20 ≤ b ∧ b < 0x80
      · have h2 : 0x20 ≤ b ∧ b ≤ 0x7E := by omega
        simp [h1, h2]
      · have h2 : ¬ (0x20 ≤ b ∧ b ≤ 0x7E) := by omega
        simp [h1, h2]
  rw [hall id h]

/-- The identifier `a:` followed by the byte 0xFF is written in hexadecimal by
both encodings. -/
theorem encodeID_eq_encodePrintable_witness :
    encodeID [97, 58, 0xFF] = encodePrintable [97, 58, 0xFF] :=
  encodeID_eq_encodePrintable [97, 58, 0xFF] (by decide)

theorem IndexRune_of_not_mem (s : Bytes) (r : Nat) (h : r ∉ s) : IndexRune s r = -1 := by
  induction s with
  | nil => rfl
  | cons b tl ih =>
    have hb : ¬ b = r := fun e => h (e ▸ List.mem_cons_self _ _)
    have htl : r ∉ tl := fun e => h (List.mem_cons_of_mem _ e)
    rw [IndexRune, if_neg hb, ih htl]
    rfl

theorem IndexRune_append (front rest : Bytes) (r : Nat) (h : r ∉ front) :
    IndexRune (front ++ r :: rest) r = front.length := by
  induction front with
  | nil => simp [IndexRune]
  | cons b tl ih =>
    have hb : ¬ b = r := fun e => h (e ▸ List.mem_cons_self _ _)
    have htl : r ∉ tl := fun e => h (List.mem_cons_of_mem _ e)
    have hne : ¬ ((tl.length : Int) = -1) := by omega
    rw [List.cons_append, IndexRune, if_neg hb, ih htl, if_neg hne]
    simp

/-- A key without a colon is encoded as a whole. -/
theorem parseWeaveKey_of_no_colon (key : Bytes) (h : 58 ∉ key) :
    parseWeaveKey key = encodeID key := by
  unfold parseWeaveKey
  simp [IndexRune_of_not_mem key 58 h]

/-- The key `ab` has no colon. -/
theorem parseWeaveKey_of_no_colon_witness : parseWeaveKey [97, 98] = encodeID [97, 98] :=
  parseWeaveKey_of_no_colon [97, 98] (by decide)

/-- A key with a colon is split at the first colon, and both parts are
encoded on their own. -/
theorem parseWeaveKey_of_colon (front rest : Bytes) (h : 58 ∉ front) :
    parseWeaveKey (front ++ 58 :: rest) = encodeID front ++ 58 :: encodeID rest := by
  have hne : ¬ ((front.length : Int) = -1) := by omega
  unfold parseWeaveKey
  simp [IndexRune_append front rest 58 h, hne]

/-- The key `a:` followed by `:` and 0xFF splits after `a`. -/
theorem parseWeaveKey_of_colon_witness :
    parseWeaveKey ([97] ++ 58 :: [58, 0xFF]) = encodeID [97] ++ 58 :: encodeID [58, 0xFF] :=
  parseWeaveKey_of_colon [97] [58, 0xFF] (by decide)

/-- With three arguments, a database that opens and the command `balance` or
`nonce`, `main` always ends in the index-out-of-range panic on `args[4]`. -/
theorem main_three_arguments_panics (ext : Externals) (cmd dir dbPrefix : String)
    (hcmd : cmd = "balance" ∨ cmd = "nonce") (hread : ext.ReadTree dir 0 dbPrefix = true) :
    main ext [cmd, dir, dbPrefix] = .indexOutOfRange 4 3 := by
  rcases hcmd with h | h <;> subst h <;>
    simp [main, mainSteps, index, hread, bind, Except.bind, pure, Except.pure, throw,
      throwThe, MonadExceptOf.throw]

/-- The run of `balance` on three arguments with a database that opens. -/
theorem main_three_arguments_panics_witness :
    main friendly ["balance", "/data/application.db", "s/k:bank/"] = .indexOutOfRange 4 3 :=
  main_three_arguments_panics friendly "balance" "/data/application.db" "s/k:bank/"
    (Or.inl rfl) rfl

end iaviewer
